import Mathlib

/-!
Verification of the day-24 grid model and time-expanded path search of
howderek/advent22 (src/src/challenges/day24.rs).  Rust `usize` values are
embedded as `Nat`; `u8` tile bytes as `Nat` with bitwise `&&&`/`|||`;
`Vec<u8>` as `List Nat`; fallible operations return `Option`.
-/

/-- Flag for tiles that block movement (bit 7 of the tile byte). -/
def COLLIDES_FLAG : Nat := 128

/-- Flag for a north-moving blizzard (bit 0). -/
def NORTH_FLAG : Nat := 1

/-- Flag for an east-moving blizzard (bit 1). -/
def EAST_FLAG : Nat := 2

/-- Flag for a south-moving blizzard (bit 2). -/
def SOUTH_FLAG : Nat := 4

/-- Flag for a west-moving blizzard (bit 3). -/
def WEST_FLAG : Nat := 8

/-- Obstacle catalog entry: a display character paired with its flag byte. -/
structure ObstacleType where
  tile_char : Char
  tile_flags : Nat

/-- The empty cell. -/
def EMPTY : ObstacleType := ⟨'.', 0⟩

/-- A wall cell. -/
def WALL : ObstacleType := ⟨'#', COLLIDES_FLAG⟩

/-- A north-moving blizzard. -/
def NORTH : ObstacleType := ⟨'^', COLLIDES_FLAG ||| NORTH_FLAG⟩

/-- An east-moving blizzard. -/
def EAST : ObstacleType := ⟨'>', COLLIDES_FLAG ||| EAST_FLAG⟩

/-- A south-moving blizzard. -/
def SOUTH : ObstacleType := ⟨'v', COLLIDES_FLAG ||| SOUTH_FLAG⟩

/-- A west-moving blizzard. -/
def WEST : ObstacleType := ⟨'<', COLLIDES_FLAG ||| WEST_FLAG⟩

/-- The closed catalog of parsable obstacle kinds, in source order. -/
def PARSABLE : List ObstacleType := [EMPTY, WALL, NORTH, EAST, SOUTH, WEST]

/-- A search state: grid cell (x, y) at time instant t. -/
structure Point where
  x : Nat
  y : Nat
  t : Nat
deriving DecidableEq, Repr

/-- Candidate moves from a state: wait, step +x, step +y, and (guarded by
positivity) step -x and step -y, each advancing t by 1 at unit cost. -/
def Point.moves (p : Point) : List (Point × Nat) :=
  let m : List Point := [⟨p.x, p.y, p.t + 1⟩, ⟨p.x + 1, p.y, p.t + 1⟩, ⟨p.x, p.y + 1, p.t + 1⟩]
  let m := if p.x > 0 then m ++ [⟨p.x - 1, p.y, p.t + 1⟩] else m
  let m := if p.y > 0 then m ++ [⟨p.x, p.y - 1, p.t + 1⟩] else m
  m.map (fun q => (q, 1))

/-- Manhattan distance between the cells of two states, ignoring time
(usize::abs_diff is Nat.dist). -/
def Point.distance (p other : Point) : Nat :=
  Nat.dist p.x other.x + Nat.dist p.y other.y

/-- Index of the first '.' in a line, or none (the Err case in the source). -/
def find_first_empty (line : List Char) : Option Nat :=
  line.findIdx? (fun c => c = '.')

/-- The level: a width × height tile grid (time-0 flag bytes, row major)
plus the entry and exit states. -/
structure Level where
  tiles : List Nat
  width : Nat
  height : Nat
  enter : Point
  exit : Point
deriving Repr

/-- A fresh all-empty level of the given dimensions. -/
def Level.new (width height : Nat) : Level :=
  ⟨List.replicate (width * height) 0, width, height, ⟨0, 0, 0⟩, ⟨0, 0, 0⟩⟩

/-- Read the time-0 tile byte at (x, y); out-of-range reads default to 0
(the Rust source would panic there, see the safety claim). -/
def Level.get_tile (l : Level) (x y : Nat) : Nat :=
  l.tiles.getD (y * l.width + x) 0

/-- Write the tile byte at (x, y). -/
def Level.set_tile (l : Level) (x y val : Nat) : Level :=
  { l with tiles := l.tiles.set (y * l.width + x) val }

/-- Occupancy byte of cell (x, y) at time t: borders are the static tile;
for interior cells each direction's source cell is found by modular
arithmetic over the interior box and its direction bit is masked in. -/
def Level.future_tile (l : Level) (x y t : Nat) : Nat :=
  if x = 0 ∨ y = 0 ∨ x = l.width - 1 ∨ y = l.height - 1 then
    l.get_tile x y
  else
    let u := x - 1
    let v := y - 1
    let inner_width := l.width - 2
    let inner_height := l.height - 2
    let u_mod := t % inner_width
    let v_mod := t % inner_height
    let north_y := (inner_height + inner_height + v + v_mod) % inner_height
    let south_y := (inner_height + inner_height + v - v_mod) % inner_height
    let east_x := (inner_width + inner_width + u - u_mod) % inner_width
    let west_x := (inner_width + inner_width + u + u_mod) % inner_width
    let south_bits := l.get_tile x (south_y + 1) &&& SOUTH_FLAG
    let north_bits := l.get_tile x (north_y + 1) &&& NORTH_FLAG
    let west_bits := l.get_tile (west_x + 1) y &&& WEST_FLAG
    let east_bits := l.get_tile (east_x + 1) y &&& EAST_FLAG
    let tile := north_bits ||| east_bits ||| south_bits ||| west_bits
    if tile > 0 then tile ||| COLLIDES_FLAG else 0

/-- A state is enterable iff its cell's occupancy at its time has no
collides bit. -/
def Level.validate_point (l : Level) (point : Point) : Bool :=
  (l.future_tile point.x point.y point.t &&& COLLIDES_FLAG) != COLLIDES_FLAG

/-- Goal test: the state's cell coincides with the exit cell (any time). -/
def Level.is_exit_point (l : Level) (point : Point) : Bool :=
  point.distance l.exit == 0

/-- Successor states: the candidate moves whose destination is enterable
at the destination time. -/
def Level.successors (l : Level) (point : Point) : List (Point × Nat) :=
  point.moves.filter (fun p => l.validate_point p.1)

/-- Tile indices read by future_tile (mirrors its branches), for the
in-bounds-access claim. -/
def Level.future_tile_reads (l : Level) (x y t : Nat) : List Nat :=
  if x = 0 ∨ y = 0 ∨ x = l.width - 1 ∨ y = l.height - 1 then
    [y * l.width + x]
  else
    let u := x - 1
    let v := y - 1
    let inner_width := l.width - 2
    let inner_height := l.height - 2
    let u_mod := t % inner_width
    let v_mod := t % inner_height
    let north_y := (inner_height + inner_height + v + v_mod) % inner_height
    let south_y := (inner_height + inner_height + v - v_mod) % inner_height
    let east_x := (inner_width + inner_width + u - u_mod) % inner_width
    let west_x := (inner_width + inner_width + u + u_mod) % inner_width
    [(south_y + 1) * l.width + x, (north_y + 1) * l.width + x,
     y * l.width + (west_x + 1), y * l.width + (east_x + 1)]

/-- Concrete 6-wide, 4-tall level from the spec's worked example: entry (1,0),
exit (4,3), a single south mover at interior cell (1,1). -/
def lvlEx : Level :=
  ⟨[128, 0, 128, 128, 128, 128,
    128, 132, 0, 0, 0, 128,
    128, 0, 0, 0, 0, 128,
    128, 128, 128, 128, 0, 128], 6, 4, ⟨1, 0, 0⟩, ⟨4, 3, 0⟩⟩

/-- Concrete 5×5 level with an all-empty 3×3 interior: entry (1,0), exit (3,4). -/
def lvlOpen : Level :=
  ⟨[128, 0, 128, 128, 128,
    128, 0, 0, 0, 128,
    128, 0, 0, 0, 128,
    128, 0, 0, 0, 128,
    128, 128, 128, 0, 128], 5, 5, ⟨1, 0, 0⟩, ⟨3, 4, 0⟩⟩

/-- Membership in the candidate-move list: exactly the five wait/E/S/W/N
cells at time t+1, the decrements guarded by positivity, at unit cost. -/
lemma mem_moves_iff (p q : Point) (c : Nat) :
    (q, c) ∈ p.moves ↔
      c = 1 ∧
      (q = ⟨p.x, p.y, p.t + 1⟩ ∨ q = ⟨p.x + 1, p.y, p.t + 1⟩ ∨ q = ⟨p.x, p.y + 1, p.t + 1⟩ ∨
       (0 < p.x ∧ q = ⟨p.x - 1, p.y, p.t + 1⟩) ∨ (0 < p.y ∧ q = ⟨p.x, p.y - 1, p.t + 1⟩)) := by
  unfold Point.moves
  by_cases hx : 0 < p.x <;> by_cases hy : 0 < p.y <;>
    simp [hx, hy, Nat.pos_iff_ne_zero, eq_comm] <;> tauto

/-- C4: successors returns exactly those of the five candidate moves (wait,
+x, +y, and guarded -x, -y, each to time t+1 at unit cost) whose destination
cell has no collides bit at the destination time; occupancy at the current
time plays no role. -/
theorem successors_exactly_passable_candidates (l : Level) (p q : Point) (c : Nat) :
    (q, c) ∈ l.successors p ↔
      (c = 1 ∧
       (q = ⟨p.x, p.y, p.t + 1⟩ ∨ q = ⟨p.x + 1, p.y, p.t + 1⟩ ∨ q = ⟨p.x, p.y + 1, p.t + 1⟩ ∨
        (0 < p.x ∧ q = ⟨p.x - 1, p.y, p.t + 1⟩) ∨ (0 < p.y ∧ q = ⟨p.x, p.y - 1, p.t + 1⟩)) ∧
       l.future_tile q.x q.y q.t &&& COLLIDES_FLAG ≠ COLLIDES_FLAG) := by
  unfold Level.successors Level.validate_point
  rw [List.mem_filter]
  simp only [mem_moves_iff, bne_iff_ne, ne_eq]
  tauto

/-- Border cells take the static time-0 tile, at any time. -/
lemma future_tile_border_eq (l : Level) (x y t : Nat)
    (hb : x = 0 ∨ y = 0 ∨ x = l.width - 1 ∨ y = l.height - 1) :
    l.future_tile x y t = l.get_tile x y := by
  unfold Level.future_tile
  rw [if_pos hb]

/-- C6: on the outer ring, future_tile is the static time-0 tile byte,
independent of t. -/
theorem future_tile_border_static (l : Level) (x y t : Nat)
    (hb : x = 0 ∨ y = 0 ∨ x = l.width - 1 ∨ y = l.height - 1) :
    l.future_tile x y t = l.get_tile x y :=
  future_tile_border_eq l x y t hb

/-- Witness for the border claim at the concrete example level. -/
theorem future_tile_border_static_witness :
    ((0 : Nat) = 0 ∨ (1 : Nat) = 0 ∨ (0 : Nat) = lvlEx.width - 1 ∨ (1 : Nat) = lvlEx.height - 1) ∧
    lvlEx.future_tile 0 1 9 = lvlEx.get_tile 0 1 :=
  ⟨Or.inl rfl, future_tile_border_static lvlEx 0 1 9 (Or.inl rfl)⟩

/-- Occupancy depends on t only through its residues modulo the interior
dimensions. -/
lemma future_tile_congr (l : Level) (x y t1 t2 : Nat)
    (hw : t1 % (l.width - 2) = t2 % (l.width - 2))
    (hh : t1 % (l.height - 2) = t2 % (l.height - 2)) :
    l.future_tile x y t1 = l.future_tile x y t2 := by
  simp only [Level.future_tile]
  rw [hw, hh]

/-- C5: occupancy is periodic with period lcm(width-2, height-2). -/
theorem future_tile_periodic (l : Level) (x y t : Nat) :
    l.future_tile x y t = l.future_tile x y (t + Nat.lcm (l.width - 2) (l.height - 2)) := by
  apply future_tile_congr
  · obtain ⟨k, hk⟩ := Nat.dvd_lcm_left (l.width - 2) (l.height - 2)
    rw [hk, Nat.add_mul_mod_self_left]
  · obtain ⟨k, hk⟩ := Nat.dvd_lcm_right (l.width - 2) (l.height - 2)
    rw [hk, Nat.add_mul_mod_self_left]

/-- Row-major index of an in-bounds cell is inside a width × height vector. -/
lemma idx_lt (w h a b : Nat) (ha : a < h) (hb : b < w) : a * w + b < w * h := by
  calc a * w + b < a * w + w := by omega
    _ = (a + 1) * w := by ring
    _ ≤ h * w := Nat.mul_le_mul_right _ (by omega)
    _ = w * h := Nat.mul_comm _ _

/-- C10: for an in-bounds query on a grid with a nonempty interior,
future_tile is total: both moduli are positive, no usize subtraction
underflows, and every tile index it reads is inside the tiles vector. -/
theorem future_tile_safe (l : Level) (x y t : Nat)
    (hw : 3 ≤ l.width) (hh : 3 ≤ l.height) (hx : x < l.width) (hy : y < l.height) :
    0 < l.width - 2 ∧ 0 < l.height - 2 ∧
    (x = 0 ∨ y = 0 ∨ x = l.width - 1 ∨ y = l.height - 1 ∨
      (1 ≤ x ∧ 1 ≤ y ∧ t % (l.height - 2) ≤ l.height - 2 + (l.height - 2) + (y - 1) ∧
       t % (l.width - 2) ≤ l.width - 2 + (l.width - 2) + (x - 1))) ∧
    ∀ i ∈ l.future_tile_reads x y t, i < l.width * l.height := by
  have hw2 : 0 < l.width - 2 := by omega
  have hh2 : 0 < l.height - 2 := by omega
  have hmw := Nat.mod_lt t hw2
  have hmh := Nat.mod_lt t hh2
  refine ⟨hw2, hh2, by omega, ?_⟩
  intro i hi
  unfold Level.future_tile_reads at hi
  by_cases hb : x = 0 ∨ y = 0 ∨ x = l.width - 1 ∨ y = l.height - 1
  · rw [if_pos hb] at hi
    simp only [List.mem_singleton] at hi
    subst hi
    exact idx_lt _ _ _ _ hy hx
  · rw [if_neg hb] at hi
    have hsy := Nat.mod_lt (l.height - 2 + (l.height - 2) + (y - 1) - t % (l.height - 2)) hh2
    have hny := Nat.mod_lt (l.height - 2 + (l.height - 2) + (y - 1) + t % (l.height - 2)) hh2
    have hex := Nat.mod_lt (l.width - 2 + (l.width - 2) + (x - 1) - t % (l.width - 2)) hw2
    have hwx := Nat.mod_lt (l.width - 2 + (l.width - 2) + (x - 1) + t % (l.width - 2)) hw2
    simp only [List.mem_cons, List.mem_singleton, List.not_mem_nil, or_false] at hi
    rcases hi with hi | hi | hi | hi <;> subst hi
    · exact idx_lt _ _ _ _ (by omega) hx
    · exact idx_lt _ _ _ _ (by omega) hx
    · exact idx_lt _ _ _ _ hy (by omega)
    · exact idx_lt _ _ _ _ hy (by omega)

/-- Witness for the totality claim at the concrete example level. -/
theorem future_tile_safe_witness :
    (3 ≤ lvlEx.width ∧ 3 ≤ lvlEx.height ∧ 2 < lvlEx.width ∧ 2 < lvlEx.height) ∧
    (0 < lvlEx.width - 2 ∧ 0 < lvlEx.height - 2 ∧
     ((2 : Nat) = 0 ∨ (2 : Nat) = 0 ∨ (2 : Nat) = lvlEx.width - 1 ∨ (2 : Nat) = lvlEx.height - 1 ∨
       (1 ≤ (2 : Nat) ∧ 1 ≤ (2 : Nat) ∧ 7 % (lvlEx.height - 2) ≤ lvlEx.height - 2 + (lvlEx.height - 2) + (2 - 1) ∧
        7 % (lvlEx.width - 2) ≤ lvlEx.width - 2 + (lvlEx.width - 2) + (2 - 1))) ∧
     ∀ i ∈ lvlEx.future_tile_reads 2 2 7, i < lvlEx.width * lvlEx.height) :=
  ⟨by decide, future_tile_safe lvlEx 2 2 7 (by decide) (by decide) (by decide) (by decide)⟩

/-- A byte masked with a single-bit flag is 0 or the flag. -/
lemma and_single_bit (a k f : Nat) (hf : f = 2 ^ k) : a &&& f = 0 ∨ a &&& f = f := by
  subst hf
  rw [Nat.and_two_pow]
  cases a.testBit k <;> simp

/-- Interior occupancy, direction by direction: each direction bit of the
future tile equals that bit of the time-0 tile at the wrapped source cell. -/
lemma future_tile_interior_and (l : Level) (x y t : Nat)
    (hb : ¬(x = 0 ∨ y = 0 ∨ x = l.width - 1 ∨ y = l.height - 1)) :
    (l.future_tile x y t &&& NORTH_FLAG = NORTH_FLAG ↔
      l.get_tile x ((l.height - 2 + (l.height - 2) + (y - 1) + t % (l.height - 2)) % (l.height - 2) + 1) &&&
        NORTH_FLAG = NORTH_FLAG) ∧
    (l.future_tile x y t &&& EAST_FLAG = EAST_FLAG ↔
      l.get_tile ((l.width - 2 + (l.width - 2) + (x - 1) - t % (l.width - 2)) % (l.width - 2) + 1) y &&&
        EAST_FLAG = EAST_FLAG) ∧
    (l.future_tile x y t &&& SOUTH_FLAG = SOUTH_FLAG ↔
      l.get_tile x ((l.height - 2 + (l.height - 2) + (y - 1) - t % (l.height - 2)) % (l.height - 2) + 1) &&&
        SOUTH_FLAG = SOUTH_FLAG) ∧
    (l.future_tile x y t &&& WEST_FLAG = WEST_FLAG ↔
      l.get_tile ((l.width - 2 + (l.width - 2) + (x - 1) + t % (l.width - 2)) % (l.width - 2) + 1) y &&&
        WEST_FLAG = WEST_FLAG) := by
  simp only [Level.future_tile, if_neg hb, NORTH_FLAG, EAST_FLAG, SOUTH_FLAG, WEST_FLAG, COLLIDES_FLAG]
  rcases and_single_bit (l.get_tile x ((l.height - 2 + (l.height - 2) + (y - 1) + t % (l.height - 2)) % (l.height - 2) + 1)) 0 1 (by norm_num) with hN | hN <;>
  rcases and_single_bit (l.get_tile ((l.width - 2 + (l.width - 2) + (x - 1) - t % (l.width - 2)) % (l.width - 2) + 1) y) 1 2 (by norm_num) with hE | hE <;>
  rcases and_single_bit (l.get_tile x ((l.height - 2 + (l.height - 2) + (y - 1) - t % (l.height - 2)) % (l.height - 2) + 1)) 2 4 (by norm_num) with hS | hS <;>
  rcases and_single_bit (l.get_tile ((l.width - 2 + (l.width - 2) + (x - 1) + t % (l.width - 2)) % (l.width - 2) + 1) y) 3 8 (by norm_num) with hW | hW <;>
    rw [hN, hE, hS, hW] <;> decide

/-- Modelled from the spec: the interior-local position of a mover that
advances one cell per time unit toward increasing coordinate (south or
east), wrapping around an interior span of size n, simulated step by step. -/
def simPosFwd (n v0 : Nat) : Nat → Nat
  | 0 => v0
  | t + 1 => (simPosFwd n v0 t + 1) % n

/-- Modelled from the spec: the interior-local position of a mover that
advances one cell per time unit toward decreasing coordinate (north or
west), wrapping around an interior span of size n, simulated step by step. -/
def simPosBwd (n v0 : Nat) : Nat → Nat
  | 0 => v0
  | t + 1 => (simPosBwd n v0 t + (n - 1)) % n

/-- Closed form of the forward simulation. -/
lemma simPosFwd_eq (n v0 : Nat) (hv : v0 < n) : ∀ t, simPosFwd n v0 t = (v0 + t) % n := by
  intro t
  induction t with
  | zero => simpa [simPosFwd] using (Nat.mod_eq_of_lt hv).symm
  | succ t ih =>
    show (simPosFwd n v0 t + 1) % n = (v0 + (t + 1)) % n
    rw [ih, ← Nat.add_assoc]
    exact Nat.ModEq.add_right 1 (Nat.mod_modEq (v0 + t) n)

/-- The backward simulation stays inside the interior span. -/
lemma simPosBwd_lt (n v0 : Nat) (h0 : 0 < n) (hv : v0 < n) : ∀ t, simPosBwd n v0 t < n := by
  intro t
  cases t with
  | zero => exact hv
  | succ t => exact Nat.mod_lt _ h0

/-- The backward simulation inverts addition of t modulo n. -/
lemma simPosBwd_add (n v0 : Nat) (h0 : 0 < n) : ∀ t, (simPosBwd n v0 t + t) % n = v0 % n := by
  intro t
  induction t with
  | zero => rfl
  | succ t ih =>
    show ((simPosBwd n v0 t + (n - 1)) % n + (t + 1)) % n = v0 % n
    calc ((simPosBwd n v0 t + (n - 1)) % n + (t + 1)) % n
        = (simPosBwd n v0 t + (n - 1) + (t + 1)) % n :=
          Nat.ModEq.add_right (t + 1) (Nat.mod_modEq (simPosBwd n v0 t + (n - 1)) n)
      _ = (simPosBwd n v0 t + t + n) % n := by
          have e : simPosBwd n v0 t + (n - 1) + (t + 1) = simPosBwd n v0 t + t + n := by omega
          rw [e]
      _ = (simPosBwd n v0 t + t) % n := Nat.add_mod_right _ _
      _ = v0 % n := ih

/-- The wrapped source row of a forward mover, advanced t steps, lands on v. -/
lemma fwd_src_lands (n v t : Nat) (h0 : 0 < n) (hv : v < n) :
    ((n + n + v - t % n) % n + t) % n = v := by
  have hm : t % n < n := Nat.mod_lt t h0
  have key : ∀ m k, m < n → ((n + n + v - m) % n + (n * k + m)) % n = v := by
    intro m k hmn
    calc ((n + n + v - m) % n + (n * k + m)) % n
        = (n + n + v - m + (n * k + m)) % n :=
          Nat.ModEq.add_right _ (Nat.mod_modEq (n + n + v - m) n)
      _ = (n * k + (n + n + v)) % n := by
          generalize n * k = K
          have e : n + n + v - m + (K + m) = K + (n + n + v) := by omega
          rw [e]
      _ = (n + n + v) % n := Nat.mul_add_mod _ _ _
      _ = v := by
          have e : n + n + v = v + 2 * n := by omega
          rw [e, Nat.add_mul_mod_self_right, Nat.mod_eq_of_lt hv]
  have ht : t = n * (t / n) + t % n := (Nat.div_add_mod t n).symm
  nth_rewrite 2 [ht]
  exact key (t % n) (t / n) hm

/-- Inverting the forward drift recovers the unique source row. -/
lemma fwd_src_unique (n v0 t : Nat) (h0 : 0 < n) (hv0 : v0 < n) :
    (n + n + (v0 + t) % n - t % n) % n = v0 := by
  have hm : t % n < n := Nat.mod_lt t h0
  have hvt : (v0 + t) % n = (v0 + t % n) % n :=
    Nat.ModEq.add_left v0 (Nat.mod_modEq t n).symm
  rw [hvt]
  rcases Nat.lt_or_ge (v0 + t % n) n with hlt | hge
  · rw [Nat.mod_eq_of_lt hlt]
    have e : n + n + (v0 + t % n) - t % n = v0 + 2 * n := by omega
    rw [e, Nat.add_mul_mod_self_right, Nat.mod_eq_of_lt hv0]
  · have h1 : (v0 + t % n) % n = v0 + t % n - n := by
      rw [Nat.mod_eq_sub_mod hge, Nat.mod_eq_of_lt (by omega)]
    rw [h1]
    have e : n + n + (v0 + t % n - n) - t % n = v0 + n := by omega
    rw [e, Nat.add_mod_right, Nat.mod_eq_of_lt hv0]

/-- The backward source row (n + n + v + t mod n) is congruent to v + t. -/
lemma bwd_src_congr (n v t : Nat) :
    (v + t) % n = (n + n + v + t % n) % n := by
  have h1 : (v + t) % n = (v + t % n) % n :=
    Nat.ModEq.add_left v (Nat.mod_modEq t n).symm
  have e : n + n + v + t % n = v + t % n + 2 * n := by omega
  rw [h1, e, Nat.add_mul_mod_self_right]

/-- Values below n agreeing after adding t modulo n are equal. -/
lemma mod_add_cancel (n a b t : Nat) (ha : a < n) (hb : b < n)
    (h : (a + t) % n = (b + t) % n) : a = b := by
  have := Nat.ModEq.add_right_cancel' t (h : a + t ≡ b + t [MOD n])
  have ha' : a % n = b % n := this
  rwa [Nat.mod_eq_of_lt ha, Nat.mod_eq_of_lt hb] at ha'

/-- Modelled from the spec: brute-force occupancy of (x, y) at time t by the
south movers of column x, each simulated step by step from its time-0 row. -/
def simOccSouth (l : Level) (x y t : Nat) : Prop :=
  ∃ v0, v0 < l.height - 2 ∧ l.get_tile x (v0 + 1) &&& SOUTH_FLAG = SOUTH_FLAG ∧
    simPosFwd (l.height - 2) v0 t + 1 = y

/-- Modelled from the spec: brute-force occupancy of (x, y) at time t by the
north movers of column x, each simulated step by step from its time-0 row. -/
def simOccNorth (l : Level) (x y t : Nat) : Prop :=
  ∃ v0, v0 < l.height - 2 ∧ l.get_tile x (v0 + 1) &&& NORTH_FLAG = NORTH_FLAG ∧
    simPosBwd (l.height - 2) v0 t + 1 = y

/-- Modelled from the spec: brute-force occupancy of (x, y) at time t by the
east movers of row y, each simulated step by step from its time-0 column. -/
def simOccEast (l : Level) (x y t : Nat) : Prop :=
  ∃ u0, u0 < l.width - 2 ∧ l.get_tile (u0 + 1) y &&& EAST_FLAG = EAST_FLAG ∧
    simPosFwd (l.width - 2) u0 t + 1 = x

/-- Modelled from the spec: brute-force occupancy of (x, y) at time t by the
west movers of row y, each simulated step by step from its time-0 column. -/
def simOccWest (l : Level) (x y t : Nat) : Prop :=
  ∃ u0, u0 < l.width - 2 ∧ l.get_tile (u0 + 1) y &&& WEST_FLAG = WEST_FLAG ∧
    simPosBwd (l.width - 2) u0 t + 1 = x

/-- C1: on a well-formed grid, for every interior cell and every t, each
direction bit reported by future_tile is set iff the step-by-step simulation
of that direction's time-0 movers places such a mover at (x, y) at time t. -/
theorem future_tile_matches_simulation (l : Level) (x y t : Nat)
    (hw : 3 ≤ l.width) (hh : 3 ≤ l.height)
    (hx1 : 1 ≤ x) (hx2 : x ≤ l.width - 2) (hy1 : 1 ≤ y) (hy2 : y ≤ l.height - 2) :
    (l.future_tile x y t &&& SOUTH_FLAG = SOUTH_FLAG ↔ simOccSouth l x y t) ∧
    (l.future_tile x y t &&& NORTH_FLAG = NORTH_FLAG ↔ simOccNorth l x y t) ∧
    (l.future_tile x y t &&& EAST_FLAG = EAST_FLAG ↔ simOccEast l x y t) ∧
    (l.future_tile x y t &&& WEST_FLAG = WEST_FLAG ↔ simOccWest l x y t) := by
  have hb : ¬(x = 0 ∨ y = 0 ∨ x = l.width - 1 ∨ y = l.height - 1) := by omega
  have hw2 : 0 < l.width - 2 := by omega
  have hh2 : 0 < l.height - 2 := by omega
  obtain ⟨hN, hE, hS, hW⟩ := future_tile_interior_and l x y t hb
  refine ⟨?_, ?_, ?_, ?_⟩
  · rw [hS]
    constructor
    · intro h
      refine ⟨(l.height - 2 + (l.height - 2) + (y - 1) - t % (l.height - 2)) % (l.height - 2),
        Nat.mod_lt _ hh2, h, ?_⟩
      rw [simPosFwd_eq _ _ (Nat.mod_lt _ hh2),
        fwd_src_lands (l.height - 2) (y - 1) t hh2 (by omega)]
      omega
    · rintro ⟨v0, hv0, hflag, hpos⟩
      rw [simPosFwd_eq _ _ hv0] at hpos
      have hpos' : (v0 + t) % (l.height - 2) = y - 1 := by omega
      have hu := fwd_src_unique (l.height - 2) v0 t hh2 hv0
      rw [hpos'] at hu
      rw [hu]
      exact hflag
  · rw [hN]
    constructor
    · intro h
      refine ⟨(l.height - 2 + (l.height - 2) + (y - 1) + t % (l.height - 2)) % (l.height - 2),
        Nat.mod_lt _ hh2, h, ?_⟩
      have hlt := simPosBwd_lt (l.height - 2)
        ((l.height - 2 + (l.height - 2) + (y - 1) + t % (l.height - 2)) % (l.height - 2)) hh2
        (Nat.mod_lt _ hh2) t
      have h1 := simPosBwd_add (l.height - 2) ((l.height - 2 + (l.height - 2) + (y - 1) + t % (l.height - 2)) % (l.height - 2)) hh2 t
      rw [Nat.mod_eq_of_lt (Nat.mod_lt _ hh2)] at h1
      have h2 := bwd_src_congr (l.height - 2) (y - 1) t
      have := mod_add_cancel (l.height - 2) _ _ t hlt (by omega : y - 1 < l.height - 2)
        (h1.trans h2.symm)
      omega
    · rintro ⟨v0, hv0, hflag, hpos⟩
      have h1 := simPosBwd_add (l.height - 2) v0 hh2 t
      rw [Nat.mod_eq_of_lt hv0] at h1
      have hp : simPosBwd (l.height - 2) v0 t = y - 1 := by omega
      rw [hp] at h1
      have h2 := bwd_src_congr (l.height - 2) (y - 1) t
      have hv : (l.height - 2 + (l.height - 2) + (y - 1) + t % (l.height - 2)) % (l.height - 2) = v0 := by
        rw [← h2, h1]
      rw [hv]
      exact hflag
  · rw [hE]
    constructor
    · intro h
      refine ⟨(l.width - 2 + (l.width - 2) + (x - 1) - t % (l.width - 2)) % (l.width - 2),
        Nat.mod_lt _ hw2, h, ?_⟩
      rw [simPosFwd_eq _ _ (Nat.mod_lt _ hw2),
        fwd_src_lands (l.width - 2) (x - 1) t hw2 (by omega)]
      omega
    · rintro ⟨u0, hu0, hflag, hpos⟩
      rw [simPosFwd_eq _ _ hu0] at hpos
      have hpos' : (u0 + t) % (l.width - 2) = x - 1 := by omega
      have hu := fwd_src_unique (l.width - 2) u0 t hw2 hu0
      rw [hpos'] at hu
      rw [hu]
      exact hflag
  · rw [hW]
    constructor
    · intro h
      refine ⟨(l.width - 2 + (l.width - 2) + (x - 1) + t % (l.width - 2)) % (l.width - 2),
        Nat.mod_lt _ hw2, h, ?_⟩
      have hlt := simPosBwd_lt (l.width - 2)
        ((l.width - 2 + (l.width - 2) + (x - 1) + t % (l.width - 2)) % (l.width - 2)) hw2
        (Nat.mod_lt _ hw2) t
      have h1 := simPosBwd_add (l.width - 2) ((l.width - 2 + (l.width - 2) + (x - 1) + t % (l.width - 2)) % (l.width - 2)) hw2 t
      rw [Nat.mod_eq_of_lt (Nat.mod_lt _ hw2)] at h1
      have h2 := bwd_src_congr (l.width - 2) (x - 1) t
      have := mod_add_cancel (l.width - 2) _ _ t hlt (by omega : x - 1 < l.width - 2)
        (h1.trans h2.symm)
      omega
    · rintro ⟨u0, hu0, hflag, hpos⟩
      have h1 := simPosBwd_add (l.width - 2) u0 hw2 t
      rw [Nat.mod_eq_of_lt hu0] at h1
      have hp : simPosBwd (l.width - 2) u0 t = x - 1 := by omega
      rw [hp] at h1
      have h2 := bwd_src_congr (l.width - 2) (x - 1) t
      have hv : (l.width - 2 + (l.width - 2) + (x - 1) + t % (l.width - 2)) % (l.width - 2) = u0 := by
        rw [← h2, h1]
      rw [hv]
      exact hflag

/-- Witness for the simulation claim: interior cell (1,2) of the example
level at t = 1, where the south mover from (1,1) has just arrived. -/
theorem future_tile_matches_simulation_witness :
    (3 ≤ lvlEx.width ∧ 3 ≤ lvlEx.height ∧ 1 ≤ 1 ∧ 1 ≤ lvlEx.width - 2 ∧
     1 ≤ 2 ∧ 2 ≤ lvlEx.height - 2) ∧
    ((lvlEx.future_tile 1 2 1 &&& SOUTH_FLAG = SOUTH_FLAG ↔ simOccSouth lvlEx 1 2 1) ∧
     (lvlEx.future_tile 1 2 1 &&& NORTH_FLAG = NORTH_FLAG ↔ simOccNorth lvlEx 1 2 1) ∧
     (lvlEx.future_tile 1 2 1 &&& EAST_FLAG = EAST_FLAG ↔ simOccEast lvlEx 1 2 1) ∧
     (lvlEx.future_tile 1 2 1 &&& WEST_FLAG = WEST_FLAG ↔ simOccWest lvlEx 1 2 1)) :=
  ⟨by decide, future_tile_matches_simulation lvlEx 1 2 1 (by decide) (by decide)
    (by decide) (by decide) (by decide) (by decide)⟩

/-- C7 counterexample: from the in-bounds state (4,2) of the 5-wide open
level, the out-of-bounds candidate (5,2) is validated as passable and kept
as a successor, refuting that cells past the grid edge are never passable. -/
theorem oob_candidate_passable_counterexample :
    ((⟨5, 2, 1⟩ : Point), 1) ∈ lvlOpen.successors ⟨4, 2, 0⟩ ∧ lvlOpen.width ≤ 5 := by
  decide

/-- C7 (amended): states strictly inside the right and bottom edges generate
only in-bounds candidate destinations, so no out-of-bounds cell is ever
offered to validate_point from them; out-of-bounds candidates can arise only
from states on the last column or row. -/
theorem moves_in_bounds_inner (p q : Point) (c w h : Nat)
    (hx : p.x + 1 < w) (hy : p.y + 1 < h) (hq : (q, c) ∈ p.moves) :
    q.x < w ∧ q.y < h := by
  rw [mem_moves_iff] at hq
  obtain ⟨-, hq⟩ := hq
  rcases hq with h1 | h1 | h1 | ⟨-, h1⟩ | ⟨-, h1⟩ <;> subst h1 <;>
    exact ⟨by dsimp; omega, by dsimp; omega⟩

/-- Witness for the amended bounds claim. -/
theorem moves_in_bounds_inner_witness :
    ((0 : Nat) + 1 < 5 ∧ (0 : Nat) + 1 < 5 ∧ ((⟨1, 0, 1⟩ : Point), 1) ∈ (Point.mk 0 0 0).moves) ∧
    ((⟨1, 0, 1⟩ : Point).x < 5 ∧ (⟨1, 0, 1⟩ : Point).y < 5) :=
  ⟨⟨by decide, by decide, by decide⟩,
   moves_in_bounds_inner ⟨0, 0, 0⟩ ⟨1, 0, 1⟩ 1 5 5 (by decide) (by decide) (by decide)⟩

/-- Modelled from the spec: one breadth-first layer of the time-expanded
search - the deduplicated cells of all valid successors, at time t, of the
cells in the current frontier. -/
def Level.stepFrontier (l : Level) (t : Nat) (frontier : List (Nat × Nat)) : List (Nat × Nat) :=
  (frontier.flatMap (fun pos =>
    (l.successors ⟨pos.1, pos.2, t⟩).map (fun qc => (qc.1.x, qc.1.y)))).dedup

/-- Modelled from the spec: the set of cells the agent can occupy at time t,
starting from the entry cell at time 0. -/
def Level.reach (l : Level) : Nat → List (Nat × Nat)
  | 0 => [(l.enter.x, l.enter.y)]
  | t + 1 => l.stepFrontier t (l.reach t)

/-- Modelled from the spec: the loop of the external crate
pathfinding::directed::astar - with the consistent unit-cost Manhattan
heuristic it expands states in nondecreasing time order and stops at the
first expansion of a goal state, so the first time layer containing the
exit cell gives the returned cost; fuel bounds the otherwise unbounded loop. -/
def Level.searchFrom (l : Level) : Nat → Nat → Option Nat
  | _, 0 => none
  | t, fuel + 1 =>
    if (l.exit.x, l.exit.y) ∈ l.reach t then some t else l.searchFrom (t + 1) fuel

/-- Modelled from the spec: solve returns the minimal number of moves from
the entry at t = 0 to the exit cell, searching times up to the given bound. -/
def Level.solve (l : Level) (bound : Nat) : Option Nat :=
  l.searchFrom 0 (bound + 1)

/-- A valid move sequence from a state: each successive state is one of the
candidate moves of its predecessor and its cell is passable at its own
(destination) time. -/
def Level.validSeq (l : Level) : Point → List Point → Prop
  | _, [] => True
  | p, q :: rest => (q, 1) ∈ p.moves ∧ l.validate_point q = true ∧ l.validSeq q rest

/-- Candidate moves always cost 1 and advance time by exactly 1. -/
lemma mem_moves_cost_time (p q : Point) (c : Nat) (h : (q, c) ∈ p.moves) :
    c = 1 ∧ q.t = p.t + 1 := by
  rw [mem_moves_iff] at h
  obtain ⟨hc, hq⟩ := h
  refine ⟨hc, ?_⟩
  rcases hq with h1 | h1 | h1 | ⟨-, h1⟩ | ⟨-, h1⟩ <;> subst h1 <;> rfl

/-- Successor membership unfolds to move membership plus passability. -/
lemma mem_successors (l : Level) (p q : Point) (c : Nat) :
    (q, c) ∈ l.successors p ↔ (q, c) ∈ p.moves ∧ l.validate_point q = true := by
  simp [Level.successors, List.mem_filter]

/-- Appending one state to a valid sequence. -/
lemma validSeq_append_one (l : Level) (start : Point) (seq : List Point) (q : Point) :
    l.validSeq start (seq ++ [q]) ↔
      l.validSeq start seq ∧ (q, 1) ∈ (seq.getLastD start).moves ∧
        l.validate_point q = true := by
  induction seq generalizing start with
  | nil => simp [Level.validSeq]
  | cons a rest ih =>
    simp only [List.cons_append, Level.validSeq, List.append_eq, ih a, List.getLastD_cons]
    tauto

/-- The last state of a valid sequence sits at time start.t + length. -/
lemma validSeq_last_t (l : Level) (start : Point) (seq : List Point)
    (h : l.validSeq start seq) : (seq.getLastD start).t = start.t + seq.length := by
  induction seq generalizing start with
  | nil => simp
  | cons a rest ih =>
    obtain ⟨hm, -, hrest⟩ := h
    rw [List.getLastD_cons, ih a hrest, (mem_moves_cost_time _ _ _ hm).2]
    simp only [List.length_cons]
    omega

/-- The last element of a list extended by one element. -/
lemma getLastD_append_single {α : Type} (xs : List α) (q d : α) :
    (xs ++ [q]).getLastD d = q := by
  induction xs generalizing d with
  | nil => rfl
  | cons a rest ih => rw [List.cons_append, List.getLastD_cons, ih]

/-- The frontier at time t is exactly the set of cells reachable by a valid
move sequence of length t from the entry at time 0. -/
lemma reach_iff (l : Level) : ∀ (t a b : Nat),
    ((a, b) ∈ l.reach t ↔
      ∃ seq, l.validSeq ⟨l.enter.x, l.enter.y, 0⟩ seq ∧ seq.length = t ∧
        seq.getLastD ⟨l.enter.x, l.enter.y, 0⟩ = ⟨a, b, t⟩) := by
  intro t
  induction t with
  | zero =>
    intro a b
    simp only [Level.reach, List.mem_singleton]
    constructor
    · intro h
      rw [Prod.mk.injEq] at h
      refine ⟨[], trivial, rfl, ?_⟩
      simp [h.1, h.2]
    · rintro ⟨seq, -, hlen, hlast⟩
      rw [List.length_eq_zero] at hlen
      subst hlen
      simp only [List.getLastD_nil, Point.mk.injEq] at hlast
      simp [hlast.1, hlast.2]
  | succ t ih =>
    intro a b
    simp only [Level.reach, Level.stepFrontier, List.mem_dedup, List.mem_flatMap,
      List.mem_map]
    constructor
    · rintro ⟨pos, hpos, ⟨q, c⟩, hqc, hab⟩
      obtain ⟨seq, hv, hlen, hlast⟩ := (ih pos.1 pos.2).mp hpos
      rw [mem_successors] at hqc
      obtain ⟨hmv, hval⟩ := hqc
      obtain ⟨-, hqt⟩ := mem_moves_cost_time _ _ _ hmv
      have hc1 : c = 1 := (mem_moves_cost_time _ _ _ hmv).1
      subst hc1
      refine ⟨seq ++ [q], ?_, ?_, ?_⟩
      · rw [validSeq_append_one, hlast]
        exact ⟨hv, hmv, hval⟩
      · simp [hlen]
      · rw [getLastD_append_single]
        rw [Prod.mk.injEq] at hab
        cases q with
        | mk qx qy qt =>
          simp only at hab hqt
          simp [hab.1, hab.2, hqt, hlen]
    · rintro ⟨seq, hv, hlen, hlast⟩
      have hne : seq ≠ [] := by
        intro h
        rw [h] at hlen
        simp at hlen
      obtain ⟨ys, q, rfl⟩ : ∃ ys q, seq = ys ++ [q] :=
        ⟨seq.dropLast, seq.getLast hne, (List.dropLast_append_getLast hne).symm⟩
      rw [validSeq_append_one] at hv
      obtain ⟨hvys, hmv, hval⟩ := hv
      rw [getLastD_append_single] at hlast
      subst hlast
      have hyslen : ys.length = t := by
        rw [List.length_append] at hlen
        simp at hlen
        omega
      obtain ⟨-, hqt⟩ := mem_moves_cost_time _ _ _ hmv
      set p' := ys.getLastD (⟨l.enter.x, l.enter.y, 0⟩ : Point) with hp'
      have hpt : p'.t = t := by
        have := validSeq_last_t l _ ys hvys
        rw [← hp'] at this
        simp only at hqt
        omega
      have hplast : ys.getLastD (⟨l.enter.x, l.enter.y, 0⟩ : Point) = ⟨p'.x, p'.y, t⟩ := by
        rw [← hp', ← hpt]
      refine ⟨(p'.x, p'.y), (ih p'.x p'.y).mpr ⟨ys, hvys, hyslen, hplast⟩,
        (⟨a, b, t + 1⟩, 1), ?_, rfl⟩
      rw [mem_successors]
      refine ⟨?_, hval⟩
      have hpeq : (⟨p'.x, p'.y, t⟩ : Point) = p' := by
        rw [← hpt]
      rw [hpeq]
      exact hmv

/-- What a successful search run means: the exit cell is in the returned
layer and in no earlier layer at or after the starting time. -/
lemma searchFrom_some (l : Level) : ∀ (fuel t0 c : Nat), l.searchFrom t0 fuel = some c →
    (l.exit.x, l.exit.y) ∈ l.reach c ∧ t0 ≤ c ∧
      ∀ t', t0 ≤ t' → t' < c → (l.exit.x, l.exit.y) ∉ l.reach t' := by
  intro fuel
  induction fuel with
  | zero =>
    intro t0 c h
    simp [Level.searchFrom] at h
  | succ fuel ih =>
    intro t0 c h
    unfold Level.searchFrom at h
    by_cases hmem : (l.exit.x, l.exit.y) ∈ l.reach t0
    · rw [if_pos hmem] at h
      obtain rfl : t0 = c := by simpa using h
      exact ⟨hmem, Nat.le_refl _, fun t' h1 h2 => absurd h2 (by omega)⟩
    · rw [if_neg hmem] at h
      obtain ⟨h1, h2, h3⟩ := ih (t0 + 1) c h
      refine ⟨h1, by omega, ?_⟩
      intro t' ht0 htc
      rcases Nat.eq_or_lt_of_le ht0 with heq | hlt
      · rw [← heq]
        exact hmem
      · exact h3 t' hlt htc

/-- C2: when the (spec-modelled) search returns a cost c, a valid move
sequence of length c from the entry at t = 0 to the exit cell exists, and
every valid move sequence reaching the exit cell has at least c moves. -/
theorem solve_cost_minimal (l : Level) (bound c : Nat) (h : l.solve bound = some c) :
    (∃ seq, l.validSeq ⟨l.enter.x, l.enter.y, 0⟩ seq ∧
       l.is_exit_point (seq.getLastD ⟨l.enter.x, l.enter.y, 0⟩) = true ∧
       seq.length = c) ∧
    (∀ seq, l.validSeq ⟨l.enter.x, l.enter.y, 0⟩ seq →
       l.is_exit_point (seq.getLastD ⟨l.enter.x, l.enter.y, 0⟩) = true →
       c ≤ seq.length) := by
  obtain ⟨h1, -, h3⟩ := searchFrom_some l (bound + 1) 0 c h
  constructor
  · obtain ⟨seq, hv, hlen, hlast⟩ := (reach_iff l c l.exit.x l.exit.y).mp h1
    refine ⟨seq, hv, ?_, hlen⟩
    rw [hlast]
    simp [Level.is_exit_point, Point.distance, Nat.dist_self]
  · intro seq hv hex
    set last := seq.getLastD (⟨l.enter.x, l.enter.y, 0⟩ : Point) with hlastdef
    have hdist : last.distance l.exit = 0 := by
      simpa [Level.is_exit_point] using hex
    have hx : last.x = l.exit.x :=
      Nat.eq_of_dist_eq_zero (by
        unfold Point.distance at hdist
        omega)
    have hy : last.y = l.exit.y :=
      Nat.eq_of_dist_eq_zero (by
        unfold Point.distance at hdist
        omega)
    have ht : last.t = seq.length := by
      have := validSeq_last_t l _ seq hv
      rw [← hlastdef] at this
      simpa using this
    have hlast2 : seq.getLastD (⟨l.enter.x, l.enter.y, 0⟩ : Point) =
        ⟨l.exit.x, l.exit.y, seq.length⟩ := by
      rw [← hlastdef, ← hx, ← hy, ← ht]
    have hmem := (reach_iff l seq.length l.exit.x l.exit.y).mpr ⟨seq, hv, rfl, hlast2⟩
    by_contra hc
    exact h3 seq.length (Nat.zero_le _) (by omega) hmem

/-- Concrete 3-wide, 3-tall level with an empty 1×1 interior: entry (1,0),
exit (1,2); the minimum path is two moves straight down. -/
def lvlC2 : Level :=
  ⟨[128, 0, 128,
    128, 0, 128,
    128, 0, 128], 3, 3, ⟨1, 0, 0⟩, ⟨1, 2, 0⟩⟩

/-- Witness for the minimal-cost claim: the tiny level is solved in 2 moves. -/
theorem solve_cost_minimal_witness :
    lvlC2.solve 5 = some 2 ∧
    ((∃ seq, lvlC2.validSeq ⟨lvlC2.enter.x, lvlC2.enter.y, 0⟩ seq ∧
        lvlC2.is_exit_point (seq.getLastD ⟨lvlC2.enter.x, lvlC2.enter.y, 0⟩) = true ∧
        seq.length = 2) ∧
     (∀ seq, lvlC2.validSeq ⟨lvlC2.enter.x, lvlC2.enter.y, 0⟩ seq →
        lvlC2.is_exit_point (seq.getLastD ⟨lvlC2.enter.x, lvlC2.enter.y, 0⟩) = true →
        2 ≤ seq.length)) :=
  ⟨by decide, solve_cost_minimal lvlC2 5 2 (by decide)⟩

/-- Concrete 5-wide, 4-tall level whose interior row 1 is a full row of
east movers: every interior column is blocked at every time, so the exit
(3,3) is unreachable from the entry (1,0). -/
def lvlC3 : Level :=
  ⟨[128, 0, 128, 128, 128,
    128, 130, 130, 130, 128,
    128, 0, 0, 0, 128,
    128, 128, 128, 0, 128], 5, 4, ⟨1, 0, 0⟩, ⟨3, 3, 0⟩⟩

/-- Waiting at the entry of the blocked level is valid at every time. -/
lemma c3_wait_free (s : Nat) : lvlC3.validate_point ⟨1, 0, s⟩ = true := by
  have h := future_tile_border_eq lvlC3 1 0 s (Or.inr (Or.inl rfl))
  simp [Level.validate_point, h]
  decide

/-- The wall right of the entry blocks at every time. -/
lemma c3_right_wall (s : Nat) : lvlC3.validate_point ⟨2, 0, s⟩ = false := by
  have h := future_tile_border_eq lvlC3 2 0 s (Or.inr (Or.inl rfl))
  simp [Level.validate_point, h]
  decide

/-- The wall left of the entry blocks at every time. -/
lemma c3_left_wall (s : Nat) : lvlC3.validate_point ⟨0, 0, s⟩ = false := by
  have h := future_tile_border_eq lvlC3 0 0 s (Or.inl rfl)
  simp [Level.validate_point, h]
  decide

/-- The interior cell below the entry is occupied by an east mover at every
time: the full mover row never frees a cell. -/
lemma c3_blocked (s : Nat) : lvlC3.validate_point ⟨1, 1, s⟩ = false := by
  have h3 : s % 3 = 0 ∨ s % 3 = 1 ∨ s % 3 = 2 := by omega
  have h2 : s % 2 = 0 ∨ s % 2 = 1 := by omega
  have e3 : lvlC3.width - 2 = 3 := rfl
  have e2 : lvlC3.height - 2 = 2 := rfl
  have ew : lvlC3.width - 1 = 4 := rfl
  have eh : lvlC3.height - 1 = 3 := rfl
  simp only [Level.validate_point, Level.future_tile, e3, e2, ew, eh]
  rcases h3 with h | h | h <;> rcases h2 with g | g <;> rw [h, g] <;> decide

/-- C3: on the blocked level the search frontier equals [(1,0)] at every
time - never empty, so the astar loop can never exhaust it - and the goal
cell is never in it, so the goal test never succeeds; the external search
therefore never terminates and the claimed None is never produced. -/
theorem blocked_grid_frontier_never_exhausts : ∀ t : Nat,
    lvlC3.reach t = [(1, 0)] ∧ (lvlC3.exit.x, lvlC3.exit.y) ∉ lvlC3.reach t := by
  intro t
  induction t with
  | zero => exact ⟨rfl, by decide⟩
  | succ t ih =>
    have h1 := c3_wait_free (t + 1)
    have h2 := c3_right_wall (t + 1)
    have h3 := c3_left_wall (t + 1)
    have h4 := c3_blocked (t + 1)
    have hstep : lvlC3.reach (t + 1) = lvlC3.stepFrontier t (lvlC3.reach t) := rfl
    have hfront : lvlC3.stepFrontier t [(1, 0)] = [(1, 0)] := by
      simp [Level.stepFrontier, Level.successors, Point.moves, h1, h2, h3, h4]
    rw [hstep, ih.1, hfront]
    exact ⟨rfl, by decide⟩

/-- One transition of the per-cell render character, exactly as matched in
the source (note the uppercase V arm, while the south mover's catalog symbol
is lowercase v). -/
def renderStep (c : Char) (tile_char : Char) : Char :=
  match c with
  | '.' | '#' => tile_char
  | '^' | '>' | 'V' | '<' => '2'
  | '2' => '3'
  | '3' => '4'
  | _ => '?'

/-- The character a tile byte renders as: start from '.', then for each
catalog entry all of whose flags are present, advance the character. -/
def renderTile (tile : Nat) : Char :=
  PARSABLE.foldl
    (fun c ob => if tile &&& ob.tile_flags = ob.tile_flags then renderStep c ob.tile_char else c)
    '.'

/-- The buffer-filling loop of to_ascii: i walks the tiles, offset counts
the newlines inserted after each full row except the last. -/
def asciiLoop (width n : Nat) : List Nat → Nat → Nat → List Char → List Char
  | [], _, _, buf => buf
  | tile :: rest, i, offset, buf =>
    let str_i := i + offset
    let buf1 := buf.set str_i (renderTile tile)
    if i > 0 ∧ (i + 1) % width = 0 ∧ i < n - 1 then
      asciiLoop width n rest (i + 1) (offset + 1) (buf1.set (str_i + 1) '\n')
    else
      asciiLoop width n rest (i + 1) offset buf1

/-- Render the level's time-0 tiles into a width*height + height character
buffer initialised to NUL, rows separated by newlines. -/
def Level.to_ascii (l : Level) : List Char :=
  asciiLoop l.width l.tiles.length l.tiles 0 0
    (List.replicate (l.width * l.height + l.height) (Char.ofNat 0))

/-- Split a character list on newlines, keeping empty segments. -/
def splitNl : List Char → List Char → List (List Char)
  | [], acc => [acc.reverse]
  | c :: rest, acc =>
    if c = '\n' then acc.reverse :: splitNl rest [] else splitNl rest (c :: acc)

/-- The lines of a text as Rust str::lines yields them: split on newlines,
with no final empty line for a trailing newline. -/
def rustLines (s : List Char) : List (List Char) :=
  let ls := splitNl s []
  match ls.getLast? with
  | some [] => ls.dropLast
  | _ => ls

/-- Store one input row into the tile grid: the first catalog entry whose
character matches supplies the flags; unknown characters leave the default. -/
def setRow (st : Level) (y : Nat) (line : List Char) : Level :=
  line.enum.foldl
    (fun s xc =>
      match PARSABLE.find? (fun ob => xc.2 = ob.tile_char) with
      | some ob => s.set_tile xc.1 y ob.tile_flags
      | none => s)
    st

/-- Process the enumerated lines: row 0 fixes the entry column, the last row
the exit coordinates, and every row's characters are stored; a first or last
row without a gap aborts (the source unwraps the Err). -/
def parseLines (height : Nat) : Level → List (Nat × List Char) → Option Level
  | st, [] => some st
  | st, (y, line) :: rest =>
    let st1 : Option Level :=
      if y = 0 then
        match find_first_empty line with
        | some sx => some { st with enter := { st.enter with x := sx } }
        | none => none
      else some st
    match st1 with
    | none => none
    | some st1' =>
      let st2 : Option Level :=
        if y = height - 1 then
          match find_first_empty line with
          | some ex => some { st1' with exit := ⟨ex, y, st1'.exit.t⟩ }
          | none => none
        else some st1'
      match st2 with
      | none => none
      | some st2' => parseLines height (setRow st2' y line) rest

/-- Parse a textual grid: the width is the longest line's length, the height
the number of lines; then rows are processed in order. -/
def Level.parse (input : List Char) : Option Level :=
  let ls := rustLines input
  let width := ls.foldl (fun w line => if line.length > w then line.length else w) 0
  let height := ls.length
  parseLines height (Level.new width height) ls.enum

/-- C8: a cell byte carrying exactly the south and west mover flags (two
overlapping movers) renders '?' rather than the digit '2': the south mover
writes lowercase v, which the mover match arm (testing uppercase V) does not
recognise, so the west mover's transition falls to the catch-all. -/
theorem render_south_west_overlap :
    renderTile (COLLIDES_FLAG ||| SOUTH_FLAG ||| WEST_FLAG) = '?' ∧
    Level.to_ascii ⟨[140], 1, 1, ⟨0, 0, 0⟩, ⟨0, 0, 0⟩⟩ = ['?', Char.ofNat 0] := by
  exact ⟨rfl, rfl⟩

/-- The round-trip input: a 3×3 grid with one gap in the top and bottom rows
and a south mover inside. -/
def inputC9 : List Char :=
  ['#', '.', '#', '\n', '#', 'v', '#', '\n', '#', '.', '#']

/-- C9: re-parsing the rendered time-0 snapshot does not reproduce the
dimensions: the width grows from 3 to 4, because to_ascii leaves a trailing
NUL character that parse counts into the last line's length. -/
theorem roundtrip_width_changes :
    (Level.parse inputC9).map Level.width = some 3 ∧
    ((Level.parse inputC9).bind (fun l => Level.parse l.to_ascii)).map Level.width = some 4 := by
  exact ⟨rfl, rfl⟩
